import Mathlib

/-!
Verification of the nytl header utilities (`nytl/convert.hpp` and
`nytl/bits/referenceIteration.inl`) against their specification.

The convert facility is a compile-time dispatch between three conversion
strategies (native `static_cast`, element-wise `containerCast`, fixed-size
`arrayCast`).  We embed it shallowly over a small universe of C++ types
(`Ty`): the numeric types `int` and `double`, a resizable sequence
container `vec` (e.g. `std::vector`), and the fixed-size `std::array`.
Runtime values of those types are the inductive `Val`.  Template
instantiation failure ("the program does not compile") is modelled by
`Option`: a conversion that would be rejected at build time is `none`.

The reference-iteration adapter is embedded at two levels: a small C++
type calculus (`CppTy`) reproducing the declared return-type computation
`std::remove_pointer<decltype(*T{})>::type` of `referenceIterator`, and a
value-level model of iterating a collection of pointers (addresses into a
heap list).
-/

namespace Nytl

/-- The universe of C++ types the convert facility is exercised over:
`int`, `double`, a resizable sequence container (`std::vector`-like) and
`std::array<elem, size>`. -/
inductive Ty where
  | int
  | double
  | vec (elem : Ty)
  | array (elem : Ty) (size : Nat)
deriving DecidableEq

/-- Runtime values of the types in `Ty`.  C++ `double` is modelled
exactly by `Rat` (the claims only exercise integral values, which
`double` represents exactly). -/
inductive Val where
  | vint (n : Int)
  | vdouble (q : Rat)
  | vvec (l : List Val)
  | varr (l : List Val)

/-- `hasTy t v` holds when value `v` is a run-time value of C++ type `t`
(for an array type the length must match the compile-time size). -/
def hasTy : Ty → Val → Bool
  | .int, .vint _ => true
  | .double, .vdouble _ => true
  | .vec t, .vvec l => l.all (fun v => hasTy t v)
  | .array t n, .varr l => l.length == n && l.all (fun v => hasTy t v)
  | _, _ => false

/-- The arithmetic types of the universe. -/
def isNum : Ty → Bool
  | .int => true
  | .double => true
  | _ => false

/-- `ValidStaticCast` (convert.hpp line 113): `static_cast<To>(From)` is
well-formed.  In this universe that is exactly a conversion between the
two arithmetic types or a copy of a value of the same type; there are no
user-defined conversion operators between distinct container types. -/
def validStaticCast (f t : Ty) : Bool :=
  f == t || (isNum f && isNum t)

/-- `ValidContainerCast` (convert.hpp line 116), i.e. the SFINAE
constraint of `containerCast` (lines 84-90): the target is
default-constructible, resizable and iterable (here: `vec`), and the
source is iterable with a size (here: `vec` or `array`).  The final
constraint `*To.begin() = convert(*From.begin())` assigns from the
deferred `AutoCastable`, whose templated `operator O()` is merely
declared in this unevaluated context, so it imposes no further
restriction on the element types. -/
def validContainerCastStruct : Ty → Ty → Bool
  | .vec _, .vec _ => true
  | .array _ _, .vec _ => true
  | _, _ => false

/-- `convertValid f t` holds exactly when the instantiation of
`nytl::convert<t>(f)` compiles: either the equal-length-array
specialization of `Converter` applies and the element conversion
compiles, or the primary template's `if constexpr` chain finds a valid
`static_cast`, or it finds a structurally valid `containerCast` whose
element conversions compile; otherwise the `static_assert` on line 125
("Invalid conversion!") fires. -/
def convertValid : Ty → Ty → Bool
  | .array a m, .array b n => m == n && convertValid a b
  | .vec a, .vec b => a == b || convertValid a b
  | .array a _, .vec b => convertValid a b
  | f, t => validStaticCast f t

/-- C++ `static_cast<int>(double)` truncates toward zero. -/
def ratTrunc (q : Rat) : Int := q.num.tdiv q.den

/-- The result of `static_cast<t>(v)` for `v` of type `f` (`none` when
the cast is ill-formed or `v` is not a value of `f`).  Numeric casts
convert the value (`int` to `double` exactly, `double` to `int` by
truncation toward zero); a cast to the same type is a copy. -/
def staticCastVal : Ty → Ty → Val → Option Val
  | .int, .int, .vint n => some (.vint n)
  | .int, .double, .vint n => some (.vdouble (n : Rat))
  | .double, .int, .vdouble q => some (.vint (ratTrunc q))
  | .double, .double, .vdouble q => some (.vdouble q)
  | .vec a, .vec b, v => if a = b then some v else none
  | .array a m, .array b n, v => if a = b ∧ m = n then some v else none
  | _, _, _ => none

/-- Element-wise conversion of a container's contents: the loop
`while(f != con.end()) *(t++) = convert(*(f++));` of `containerCast`
(convert.hpp lines 95-97) and the loop of `arrayCast` (lines 75-76).
Fails (`none`) as soon as one element conversion fails. -/
def mapConvertWith (g : Val → Option Val) : List Val → Option (List Val)
  | [] => some []
  | v :: vs =>
    match g v, mapConvertWith g vs with
    | some w, some ws => some (w :: ws)
    | _, _ => none

/-- `nytl::convert<t>(v)` = `Converter<f, t>::call(v)` (convert.hpp
lines 32-36), with the dispatch of the `Converter` template:

* for equal-length `std::array` pairs the partial specialization on
  lines 136-139 is selected (C++ prefers a matching partial
  specialization over the primary template; its `ValidArrayCast`
  constraint is purely structural, see `validContainerCastStruct`) and
  calls `arrayCast`, whose loop converts index `i` to index `i`; the
  element instantiation `convert<To>(array[i])` must itself compile
  (`convertValid`), otherwise the whole instantiation is ill-formed;
* otherwise the primary template (lines 115-130) runs its
  `if constexpr` chain: a well-formed `static_cast` wins, else a
  structurally well-formed `containerCast` (resizable target) whose
  element conversions compile, else the `static_assert` fires (line
  125), modelled as `none`.

Arrays of different lengths never match the specialization and neither
primary branch applies, so they are ill-formed.  Ill-typed values (a
`v` that is not a value of `f`) also map to `none`. -/
def convert : Ty → Ty → Val → Option Val
  | .array a m, .array b n, v =>
    if m = n then
      match v with
      | .varr l => if convertValid a b then (mapConvertWith (convert a b) l).map Val.varr else none
      | _ => none
    else none
  | .vec a, .vec b, v =>
    if validStaticCast (.vec a) (.vec b) then staticCastVal (.vec a) (.vec b) v
    else
      match v with
      | .vvec l => if convertValid a b then (mapConvertWith (convert a b) l).map Val.vvec else none
      | _ => none
  | .array a _, .vec b, v =>
    match v with
    | .varr l => if convertValid a b then (mapConvertWith (convert a b) l).map Val.vvec else none
    | _ => none
  | f, t, v => if validStaticCast f t then staticCastVal f t v else none

/-- `nytl::containerCast<t>(v)` for source type `f` (convert.hpp lines
82-98): requires a resizable target (`vec`) and an iterable source; the
body default-constructs the target, resizes it to `con.size()` and
assigns `convert(element)` positionally, i.e. maps `convert a b` over
the source elements.  The `convertValid a b` guard models that the loop
body instantiates the element conversion even for an empty container:
if it is ill-formed the whole call fails to compile. -/
def containerCast (f t : Ty) (v : Val) : Option Val :=
  match f, t, v with
  | .vec a, .vec b, .vvec l =>
    if convertValid a b then (mapConvertWith (convert a b) l).map Val.vvec else none
  | .array a _, .vec b, .varr l =>
    if convertValid a b then (mapConvertWith (convert a b) l).map Val.vvec else none
  | _, _, _ => none

/-- `nytl::arrayCast<b>(v)` for a `std::array` of element type `a`
(convert.hpp lines 69-77): value-initializes the result array and
assigns `ret[i] = convert<b>(array[i])` for every index, so index `i`
maps to index `i`.  As in `containerCast`, the loop body instantiates
the element conversion for every length (including zero), hence the
`convertValid` guard. -/
def arrayCast (a b : Ty) (v : Val) : Option Val :=
  match v with
  | .varr l => if convertValid a b then (mapConvertWith (convert a b) l).map Val.varr else none
  | _ => none

/-- `nytl::AutoCastable<T>` (convert.hpp lines 44-48): a temporary
wrapper remembering the source type and (a pointer to) the source
value.  The pointer indirection is dropped: the model stores the value
it would point at. -/
structure AutoCastable where
  srcTy : Ty
  object : Val

/-- The deferred overload `nytl::convert(const O&)` (convert.hpp lines
59-63): returns `AutoCastable<O>{&other}`. -/
def convertDeferred (f : Ty) (v : Val) : AutoCastable :=
  ⟨f, v⟩

/-- `AutoCastable::operator O()` (convert.hpp line 46): when the
wrapper is used in a context requiring type `o` it runs
`convert<o, T>(*object_)`. -/
def autoCast (a : AutoCastable) (o : Ty) : Option Val :=
  convert a.srcTy o a.object

/-- Number of elements of a container value (`none` for scalars). -/
def valSize : Val → Option Nat
  | .vvec l => some l.length
  | .varr l => some l.length
  | _ => none

/-- A conversion at a call site: the source value lives in a heap cell
(`convert` receives it by const reference, i.e. reads the cell and
never writes it) and the freshly constructed result is a new object,
modelled as a new cell appended to the heap.  Returns the new heap and
the address of the result. -/
def convertAt (h : List Val) (src : Nat) (f t : Ty) : Option (List Val × Nat) :=
  match convert f t (h.getD src (.vint 0)) with
  | some w => some (h ++ [w], h.length)
  | none => none

/-- The three conversion strategies of the facility. -/
inductive Strategy where
  | staticCast
  | containerCast
  | arrayCast
deriving DecidableEq

/-- The strategy whose code actually runs in a compiled instantiation
of `convert<t>` from `f`, per C++ template/`if constexpr` resolution:
an equal-length array pair always matches the partial specialization
(so `arrayCast` runs, provided its element conversions compile);
otherwise the primary template prefers a well-formed `static_cast`,
then a structurally valid `containerCast` whose element conversions
compile.  `none` when the instantiation is ill-formed. -/
def selectedStrategy (f t : Ty) : Option Strategy :=
  match f, t with
  | .array a m, .array b n =>
    if m == n && convertValid a b then some .arrayCast else none
  | _, _ =>
    if validStaticCast f t then some .staticCast
    else if validContainerCastStruct f t && convertValid f t then some .containerCast
    else none

/-- Modelled from the spec: rule 2 of the resolution order, "both types
support element-wise container conversion (... element types mutually
convertible via this same facility, recursively)". -/
def specContainerApplicable (f t : Ty) : Bool :=
  validContainerCastStruct f t && convertValid f t

/-- Modelled from the spec: rule 3 of the resolution order, "both are
fixed-length arrays of the same compile-time length with element types
convertible". -/
def specArrayApplicable : Ty → Ty → Bool
  | .array a m, .array b n => m == n && convertValid a b
  | _, _ => false

/-- Modelled from the spec: the strategy the spec's precedence list
("native cast preferred over container cast preferred over
array-specific cast") would select. -/
def specOrderStrategy (f t : Ty) : Option Strategy :=
  if validStaticCast f t then some .staticCast
  else if specContainerApplicable f t then some .containerCast
  else if specArrayApplicable f t then some .arrayCast
  else none

/-! ### The reference-iteration adapter (referenceIteration.inl)

Type level: `CppTy` is the calculus of C++ types needed to state what
`referenceIterator<T>::operator*` (lines 44-45) declares and returns:
`auto operator*() -> typename std::remove_pointer<decltype(*T{})>::type
{ return *(T::operator*()); }`. -/

/-- C++ types for the adapter: the pointee object type `P`, pointer
types and (lvalue) reference types. -/
inductive CppTy where
  | P
  | ptr (t : CppTy)
  | ref (t : CppTy)
deriving DecidableEq

/-- `std::remove_pointer`: strips one top-level pointer; a reference
(even a reference to a pointer) is left unchanged. -/
def removePointer : CppTy → CppTy
  | .ptr t => t
  | t => t

/-- The declared return type of `referenceIterator<T>::operator*`
(line 44), where `d` = `decltype(*T{})`, the type of dereferencing the
underlying iterator: `std::remove_pointer<d>::type`. -/
def refIterStarRet (d : CppTy) : CppTy :=
  removePointer d

/-- The type of the expression `*e` where `e : d`: dereferencing a
pointer (prvalue or lvalue) yields an lvalue of the pointee type. -/
def derefResultTy : CppTy → Option CppTy
  | .ptr t => some (.ref t)
  | .ref (.ptr t) => some (.ref t)
  | _ => none

/-- Whether a `return e;` with `e : expr` is well-formed in a function
whose declared return type is `declared`: a reference return requires
an lvalue of exactly the referenced type; a by-value return
copy-initializes from a value or lvalue of that type. -/
def canInitReturn (declared expr : CppTy) : Bool :=
  match declared with
  | .ref x => expr == .ref x
  | x =>
    match expr with
    | .ref y => y == x
    | y => y == x

/-- Is the type a reference type? -/
def isRefTy : CppTy → Bool
  | .ref _ => true
  | _ => false

/-- Value level: the pointees live in a heap (a list of `Int` cells)
and a collection of pointers is a list of addresses.  `refIterStar`
is what the body `*(T::operator*())` of `operator*` computes at
position `pos` of collection `c`: fetch the pointer, then read the
pointee, returning it by value (cf. `refIterStarRet`). -/
def refIterStar (heap : List Int) (c : List Nat) (pos : Nat) : Int :=
  heap.getD (c.getD pos 0) 0

/-- Stepping the reference-iteration view from position `pos` for `n`
steps: each step yields `operator*` at the current position, then
increments the (inherited) underlying iterator. -/
def iterateRefView (heap : List Int) (c : List Nat) : Nat → Nat → List Int
  | _, 0 => []
  | pos, n + 1 => refIterStar heap c pos :: iterateRefView heap c (pos + 1) n

/-- Iterating the whole view: from the begin position `0` until the end
position, i.e. `c.length` steps. -/
def refIterView (heap : List Int) (c : List Nat) : List Int :=
  iterateRefView heap c 0 c.length

/-! ### The collection wrapper `referenceIteration` (lines 54-81) -/

/-- `referenceIterator<It>` as a value: it holds (by inheritance)
exactly the underlying iterator, modelled as its position. -/
structure RefIt where
  base : Nat
deriving DecidableEq

/-- A statement of a `referenceIteration` member body: either an
expression statement whose result is discarded (carrying the underlying
iterator the expression produced), or a return statement (carrying the
iterator after conversion to `referenceIterator`, line 41's converting
constructor). -/
inductive IterStmt where
  | exprStmt (e : Nat)
  | retStmt (e : RefIt)

/-- Running a member body: statements execute in order; a body that
ends without a `return` produces no value (`none` — in C++, flowing off
the end of a non-void function is undefined; no determinate iterator is
produced). -/
def runBody : List IterStmt → Option RefIt
  | [] => none
  | .exprStmt _ :: rest => runBody rest
  | .retStmt e :: _ => some e

/-- `object_->begin()`: the underlying begin iterator, position 0. -/
def collBegin (_c : List Nat) : Nat := 0

/-- `object_->end()`: the underlying end iterator, one past the last
element. -/
def collEnd (c : List Nat) : Nat := c.length

/-- Line 69, `iterator begin(){ object_->begin(); }`: the forwarded
call is an expression statement, its result is discarded and the body
has no return. -/
def beginBody (c : List Nat) : List IterStmt :=
  [.exprStmt (collBegin c)]

/-- Line 70, `const_iterator begin() const { return object_->begin(); }`:
the forwarded iterator is returned (converted to the reference
iterator). -/
def beginConstBody (c : List Nat) : List IterStmt :=
  [.retStmt ⟨collBegin c⟩]

/-- Line 76, `iterator end(){ object_->end(); }`: result discarded, no
return. -/
def endBody (c : List Nat) : List IterStmt :=
  [.exprStmt (collEnd c)]

/-- Line 77, `const_iterator end() const { return object_->end(); }`. -/
def endConstBody (c : List Nat) : List IterStmt :=
  [.retStmt ⟨collEnd c⟩]

/-! ### The factory `makeReferenceIteration` (lines 84-88) -/

/-- The class-template names of referenceIteration.inl, over a caller
collection type `baseColl`. -/
inductive RefTyName where
  | baseColl
  | referenceIteratorOf (t : RefTyName)
  | referenceIterationOf (t : RefTyName)
deriving DecidableEq

/-- Which initializations the constructors in the file allow: a type is
constructible from itself (copy), `referenceIterator<T>` from a `T`
(line 41) and `referenceIteration<T>` from a `T` (line 67). -/
def constructibleFrom : RefTyName → RefTyName → Bool
  | .referenceIteratorOf t, s => s == t || s == .referenceIteratorOf t
  | .referenceIterationOf t, s => s == t || s == .referenceIterationOf t
  | .baseColl, s => s == .baseColl

/-- Line 84-85: the factory `makeReferenceIteration` is declared to
return `referenceIterator<T>` (the iterator adapter). -/
def makeReferenceIterationDeclaredRet (t : RefTyName) : RefTyName :=
  .referenceIteratorOf t

/-- Line 87: its body constructs and returns `referenceIteration<T>`
(the collection view). -/
def makeReferenceIterationBodyTy (t : RefTyName) : RefTyName :=
  .referenceIterationOf t

/-! ### Helper lemmas about the element-wise conversion loop -/

/-- A successful element-wise conversion preserves the element count. -/
theorem mapConvertWith_length {g : Val → Option Val} :
    ∀ {l l' : List Val}, mapConvertWith g l = some l' → l'.length = l.length := by
  intro l
  induction l with
  | nil =>
    intro l' h
    simp only [mapConvertWith, Option.some.injEq] at h
    subst h
    rfl
  | cons v vs ih =>
    intro l' h
    simp only [mapConvertWith] at h
    cases hg : g v with
    | none => rw [hg] at h; exact absurd h (by simp)
    | some w =>
      rw [hg] at h
      cases hm : mapConvertWith g vs with
      | none => rw [hm] at h; exact absurd h (by simp)
      | some ws =>
        rw [hm] at h
        simp only [Option.some.injEq] at h
        subst h
        simp [ih hm]

/-- A successful element-wise conversion converts position `i` to
position `i`. -/
theorem mapConvertWith_getD {g : Val → Option Val} (d : Val) :
    ∀ {l l' : List Val}, mapConvertWith g l = some l' →
      ∀ i, i < l.length → g (l.getD i d) = some (l'.getD i d) := by
  intro l
  induction l with
  | nil => intro l' _ i hi; simp at hi
  | cons v vs ih =>
    intro l' h i hi
    simp only [mapConvertWith] at h
    cases hg : g v with
    | none => rw [hg] at h; exact absurd h (by simp)
    | some w =>
      rw [hg] at h
      cases hm : mapConvertWith g vs with
      | none => rw [hm] at h; exact absurd h (by simp)
      | some ws =>
        rw [hm] at h
        simp only [Option.some.injEq] at h
        subst h
        cases i with
        | zero => simpa using hg
        | succ j =>
          simp only [List.getD_cons_succ]
          exact ih hm j (by simpa using hi)

/-- If every element converts to a value satisfying `p`, the whole
element-wise conversion succeeds with all results satisfying `p`. -/
theorem mapConvertWith_total {g : Val → Option Val} {p : Val → Bool} :
    ∀ {l : List Val}, (∀ v ∈ l, ∃ w, g v = some w ∧ p w = true) →
      ∃ l', mapConvertWith g l = some l' ∧ ∀ w ∈ l', p w = true := by
  intro l
  induction l with
  | nil => intro _; exact ⟨[], rfl, by simp⟩
  | cons v vs ih =>
    intro hall
    obtain ⟨w, hw, hpw⟩ := hall v (by simp)
    obtain ⟨ws, hws, hpws⟩ := ih (fun x hx => hall x (by simp [hx]))
    refine ⟨w :: ws, ?_, ?_⟩
    · simp only [mapConvertWith, hw, hws]
    · intro x hx
      rcases List.mem_cons.mp hx with h | h
      · exact h ▸ hpw
      · exact hpws x h

/-- If every element converts to itself, the loop is the identity. -/
theorem mapConvertWith_id {g : Val → Option Val} :
    ∀ {l : List Val}, (∀ v ∈ l, g v = some v) → mapConvertWith g l = some l := by
  intro l
  induction l with
  | nil => intro _; rfl
  | cons v vs ih =>
    intro hall
    simp only [mapConvertWith, hall v (by simp), ih (fun x hx => hall x (by simp [hx]))]

/-- Conversion to one's own type always compiles. -/
theorem convertValid_refl : ∀ f : Ty, convertValid f f = true := by
  intro f
  induction f with
  | int => rfl
  | double => rfl
  | vec a ih => simp [convertValid]
  | array a n ih => simp [convertValid, ih]

/-- Converting a well-typed value to its own type is the identity
(a copy in C++). -/
theorem convert_refl : ∀ (f : Ty) (v : Val), hasTy f v = true → convert f f v = some v := by
  intro f
  induction f with
  | int =>
    intro v hv
    cases v <;> simp_all [hasTy, convert, validStaticCast, staticCastVal]
  | double =>
    intro v hv
    cases v <;> simp_all [hasTy, convert, validStaticCast, staticCastVal]
  | vec a ih =>
    intro v _
    simp [convert, validStaticCast, staticCastVal]
  | array a n ih =>
    intro v hv
    cases v with
    | varr l =>
      simp only [hasTy, Bool.and_eq_true, List.all_eq_true] at hv
      simp only [convert, if_pos rfl, convertValid_refl a, if_true,
        mapConvertWith_id (fun x hx => ih x (hv.2 x hx))]
      rfl
    | vint m => simp [hasTy] at hv
    | vdouble q => simp [hasTy] at hv
    | vvec l => simp [hasTy] at hv

/-- Soundness: whenever the instantiation compiles (`convertValid`),
converting a well-typed source value succeeds and produces a well-typed
value of the target type. -/
theorem convert_total : ∀ (f t : Ty) (v : Val), hasTy f v = true → convertValid f t = true →
    ∃ w, convert f t v = some w ∧ hasTy t w = true := by
  intro f
  induction f with
  | int =>
    intro t v hv hcv
    cases t <;> simp_all [convertValid, validStaticCast, isNum] <;>
      cases v <;> simp_all [hasTy, convert, validStaticCast, staticCastVal, isNum]
  | double =>
    intro t v hv hcv
    cases t <;> simp_all [convertValid, validStaticCast, isNum] <;>
      cases v <;> simp_all [hasTy, convert, validStaticCast, staticCastVal, isNum]
  | vec a ih =>
    intro t v hv hcv
    cases t with
    | int => simp_all [convertValid, validStaticCast, isNum]
    | double => simp_all [convertValid, validStaticCast, isNum]
    | array b n => simp_all [convertValid, validStaticCast, isNum]
    | vec b =>
      by_cases hab : a = b
      · subst hab
        exact ⟨v, convert_refl (.vec a) v hv, hv⟩
      · have hcvab : convertValid a b = true := by
          simpa [convertValid, hab] using hcv
        cases v with
        | vvec l =>
          simp only [hasTy, List.all_eq_true] at hv
          obtain ⟨l', hl', hpl'⟩ :=
            mapConvertWith_total (g := convert a b) (p := hasTy b)
              (fun x hx => ih b x (hv x hx) hcvab)
          refine ⟨.vvec l', ?_, by simp only [hasTy, List.all_eq_true]; exact hpl'⟩
          simp [convert, validStaticCast, isNum, hab, hcvab, hl']
        | vint m => simp [hasTy] at hv
        | vdouble q => simp [hasTy] at hv
        | varr l => simp [hasTy] at hv
  | array a m ih =>
    intro t v hv hcv
    cases t with
    | int => simp_all [convertValid, validStaticCast, isNum]
    | double => simp_all [convertValid, validStaticCast, isNum]
    | vec b =>
      have hcvab : convertValid a b = true := hcv
      cases v with
      | varr l =>
        simp only [hasTy, Bool.and_eq_true, List.all_eq_true] at hv
        obtain ⟨l', hl', hpl'⟩ :=
          mapConvertWith_total (g := convert a b) (p := hasTy b)
            (fun x hx => ih b x (hv.2 x hx) hcvab)
        refine ⟨.vvec l', ?_, by simp only [hasTy, List.all_eq_true]; exact hpl'⟩
        simp [convert, hcvab, hl']
      | vint k => simp [hasTy] at hv
      | vdouble q => simp [hasTy] at hv
      | vvec l => simp [hasTy] at hv
    | array b n =>
      simp only [convertValid, Bool.and_eq_true, beq_iff_eq] at hcv
      obtain ⟨hmn, hcvab⟩ := hcv
      cases v with
      | varr l =>
        simp only [hasTy, Bool.and_eq_true, List.all_eq_true, beq_iff_eq] at hv
        obtain ⟨l', hl', hpl'⟩ :=
          mapConvertWith_total (g := convert a b) (p := hasTy b)
            (fun x hx => ih b x (hv.2 x hx) hcvab)
        refine ⟨.varr l', ?_, ?_⟩
        · simp [convert, hmn, hcvab, hl']
        · have hlen : l'.length = l.length := mapConvertWith_length hl'
          simp only [hasTy, Bool.and_eq_true, List.all_eq_true, beq_iff_eq]
          exact ⟨by rw [hlen, hv.1, hmn], hpl'⟩
      | vint k => simp [hasTy] at hv
      | vdouble q => simp [hasTy] at hv
      | vvec l => simp [hasTy] at hv

/-- C7: for every `(From, To)` pair for which no conversion strategy
applies — `convertValid f t = false`, i.e. no native static cast, no
element-wise container match and no matching fixed-size-array
conversion, recursively — `convert<To>(value)` fails at compile time
(`none`, the model of an ill-formed instantiation); there is no runtime
fallback, default value, exception or null result: the value-level
function has no other outcome. -/
theorem convert_fails : ∀ (f t : Ty) (v : Val), convertValid f t = false →
    convert f t v = none := by
  intro f t v hcv
  cases f with
  | int => cases t <;> simp_all [convertValid, validStaticCast, isNum, convert]
  | double => cases t <;> simp_all [convertValid, validStaticCast, isNum, convert]
  | vec a =>
    cases t with
    | vec b =>
      simp only [convertValid, Bool.or_eq_false_iff, beq_eq_false_iff_ne, ne_eq] at hcv
      obtain ⟨hab, hcvab⟩ := hcv
      cases v <;> simp [convert, validStaticCast, isNum, hab, hcvab]
    | _ => cases v <;> simp_all [convertValid, validStaticCast, isNum, convert]
  | array a m =>
    cases t with
    | vec b =>
      cases v <;> simp_all [convertValid, convert]
    | array b n =>
      simp only [convertValid, Bool.and_eq_false_iff] at hcv
      cases v with
      | varr l =>
        rcases hcv with h | h
        · simp [convert, show m ≠ n by simpa using h]
        · simp [convert, h]
      | vint k => simp [convert]
      | vdouble q => simp [convert]
      | vvec l => simp [convert]
    | _ => cases v <;> simp_all [convertValid, validStaticCast, isNum, convert]

/-- Every successful conversion preserves the element count: scalars
map to scalars and a container result has exactly the source's size. -/
theorem convert_size : ∀ (f t : Ty) (v w : Val), convert f t v = some w →
    valSize w = valSize v := by
  intro f t v w h
  cases f with
  | int =>
    cases t <;> cases v <;>
      simp_all [convert, validStaticCast, isNum, staticCastVal] <;>
      subst h <;> rfl
  | double =>
    cases t <;> cases v <;>
      simp_all [convert, validStaticCast, isNum, staticCastVal] <;>
      subst h <;> rfl
  | vec a =>
    cases t with
    | vec b =>
      by_cases hab : a = b
      · subst hab
        simp only [convert, validStaticCast, beq_self_eq_true, Bool.true_or, if_true,
          staticCastVal, if_pos rfl, Option.some.injEq] at h
        subst h; rfl
      · cases v <;> simp_all [convert, validStaticCast, isNum, hab, staticCastVal]
        rename_i l
        rcases h with ⟨hcv, l', hl', hw⟩
        subst hw
        simp [valSize, mapConvertWith_length hl']
    | _ => cases v <;> simp_all [convert, validStaticCast, isNum, staticCastVal]
  | array a m =>
    cases t with
    | vec b =>
      cases v <;> simp_all [convert]
      rename_i l
      rcases h with ⟨hcv, l', hl', hw⟩
      subst hw
      simp [valSize, mapConvertWith_length hl']
    | array b n =>
      cases v <;> simp_all [convert]
      rcases h with ⟨hmn, h⟩
      rename_i l
      rcases h with ⟨hcv, l', hl', hw⟩
      subst hw
      simp [valSize, mapConvertWith_length hl']
    | _ => cases v <;> simp_all [convert, validStaticCast, isNum, staticCastVal]

/-- `static_cast` of a well-typed value to its own type is a copy. -/
theorem staticCastVal_refl (f : Ty) (v : Val) (hv : hasTy f v = true) :
    staticCastVal f f v = some v := by
  cases f <;> cases v <;> simp_all [hasTy, staticCastVal]

/-- Stepping the reference-iteration view `n` times yields `n` items. -/
theorem iterateRefView_length (heap : List Int) (c : List Nat) :
    ∀ (n pos : Nat), (iterateRefView heap c pos n).length = n := by
  intro n
  induction n with
  | zero => intro pos; rfl
  | succ k ih => intro pos; simp [iterateRefView, ih]

/-- The `i`-th item produced by stepping the view from `pos` is
`operator*` at position `pos + i`. -/
theorem iterateRefView_getD (heap : List Int) (c : List Nat) :
    ∀ (n pos i : Nat), i < n →
      (iterateRefView heap c pos n).getD i 0 = refIterStar heap c (pos + i) := by
  intro n
  induction n with
  | zero => intro pos i hi; exact absurd hi (by omega)
  | succ k ih =>
    intro pos i hi
    cases i with
    | zero => simp [iterateRefView]
    | succ j =>
      simp only [iterateRefView, List.getD_cons_succ]
      rw [ih (pos + 1) j (by omega)]
      congr 1
      omega

/-! ### Claim theorems -/

/-- C1: for every well-typed value `v` of a type `f` that is directly
convertible to `t` via the language's native static conversion
(`validStaticCast`), `convert<t>(v)` returns the same result as
`static_cast<t>(v)`, and that result exists. -/
theorem convert_matches_staticCast (f t : Ty) (v : Val)
    (hv : hasTy f v = true) (hs : validStaticCast f t = true) :
    convert f t v = staticCastVal f t v ∧ ∃ w, staticCastVal f t v = some w := by
  by_cases heq : f = t
  · subst heq
    have hsv : staticCastVal f f v = some v := staticCastVal_refl f v hv
    exact ⟨(convert_refl f v hv).trans hsv.symm, v, hsv⟩
  · have hnum : isNum f = true ∧ isNum t = true := by
      simpa [validStaticCast, heq] using hs
    cases f <;> cases t <;> simp_all [isNum] <;> cases v <;>
      simp_all [hasTy, convert, validStaticCast, isNum, staticCastVal]

/-- Witness for C1 at `f = int`, `t = double`, `v = 3`. -/
theorem convert_matches_staticCast_witness :
    hasTy .int (.vint 3) = true ∧ validStaticCast .int .double = true ∧
    (convert .int .double (.vint 3) = staticCastVal .int .double (.vint 3) ∧
      ∃ w, staticCastVal .int .double (.vint 3) = some w) :=
  ⟨by decide, by decide,
    convert_matches_staticCast .int .double (.vint 3) (by decide) (by decide)⟩

/-- C2 counterexample: `referenceIterator::operator*` does not return a
reference `P&` to the pointee.  Its declared return type is
`std::remove_pointer<decltype(*T{})>::type`; for an iterator whose
dereference yields `P*` by value that is `P` (a copy), and for one
whose dereference yields an lvalue `P*&`, `remove_pointer` leaves the
reference-to-pointer unchanged — in neither case is it `P&`. -/
theorem refIterStar_not_reference :
    refIterStarRet (.ptr .P) = CppTy.P ∧
    refIterStarRet (.ptr .P) ≠ CppTy.ref CppTy.P ∧
    refIterStarRet (.ref (.ptr .P)) ≠ CppTy.ref CppTy.P := by decide

/-- C2 (amended): for an iterator whose dereference yields `P*` by
value, `operator*` returns the pointee by value — the declared return
type `remove_pointer<decltype(*T{})>::type` is `P`, not a reference —
and iterating the reference-iteration view over a pointer collection
`c` with in-range (non-null) pointers yields exactly `c.length` values,
in the same order as `c`, each equal by value to `*c[i]`.  For an
iterator whose dereference yields an lvalue `P*&` (a standard container
iterator), the body's result (an lvalue of type `P`) cannot initialize
the declared return type `P*&`, so the member is ill-formed when
instantiated. -/
theorem refIterView_value_semantics (heap : List Int) (c : List Nat)
    (_hptr : ∀ a ∈ c, a < heap.length) :
    (refIterView heap c).length = c.length ∧
    (∀ i, i < c.length → (refIterView heap c).getD i 0 = heap.getD (c.getD i 0) 0) ∧
    isRefTy (refIterStarRet (.ptr .P)) = false ∧
    refIterStarRet (.ptr .P) = CppTy.P ∧
    derefResultTy (.ref (.ptr .P)) = some (.ref .P) ∧
    canInitReturn (refIterStarRet (.ref (.ptr .P))) (.ref .P) = false := by
  refine ⟨iterateRefView_length heap c c.length 0, fun i hi => ?_, by decide, rfl, rfl,
    by decide⟩
  rw [refIterView, iterateRefView_getD heap c c.length 0 i hi]
  simp [refIterStar]

/-- Witness for C2 (amended): pointees `{10, 20, 30}`, collection of
pointers `[2, 0, 1]`. -/
theorem refIterView_value_semantics_witness :
    (∀ a ∈ ([2, 0, 1] : List Nat), a < ([10, 20, 30] : List Int).length) ∧
    (((refIterView [10, 20, 30] [2, 0, 1]).length = ([2, 0, 1] : List Nat).length) ∧
      (∀ i, i < ([2, 0, 1] : List Nat).length →
        (refIterView [10, 20, 30] [2, 0, 1]).getD i 0 =
          ([10, 20, 30] : List Int).getD (([2, 0, 1] : List Nat).getD i 0) 0) ∧
      isRefTy (refIterStarRet (.ptr .P)) = false ∧
      refIterStarRet (.ptr .P) = CppTy.P ∧
      derefResultTy (.ref (.ptr .P)) = some (.ref .P) ∧
      canInitReturn (refIterStarRet (.ref (.ptr .P))) (.ref .P) = false) :=
  ⟨by decide, refIterView_value_semantics [10, 20, 30] [2, 0, 1] (by decide)⟩

/-- C3: the non-const `begin()`/`end()` overloads of the
`referenceIteration` wrapper discard the result of the forwarded call
(their bodies are a lone expression statement with no `return`), so
they produce no determinate iterator (`none`), in particular not the
forwarded, adapted one; the const overloads return the forwarded
iterator adapted through the `referenceIterator` constructor. -/
theorem referenceIteration_begin_end_defect (c : List Nat) :
    runBody (beginBody c) = none ∧ runBody (endBody c) = none ∧
    runBody (beginBody c) ≠ some ⟨collBegin c⟩ ∧
    runBody (endBody c) ≠ some ⟨collEnd c⟩ ∧
    runBody (beginConstBody c) = some ⟨collBegin c⟩ ∧
    runBody (endConstBody c) = some ⟨collEnd c⟩ := by
  simp [runBody, beginBody, endBody, beginConstBody, endConstBody]

/-- C4: for every well-typed container of element type `a` (a `vec` or
an `array` of matching length) and every resizable target container of
element type `b` with the `a` to `b` conversion compiling,
`containerCast` succeeds and returns a container of the same size whose
`i`-th element is `convert<b>` of the source's `i`-th element
(positional correspondence, source traversal order). -/
theorem containerCast_elementwise (a b : Ty) (l : List Val)
    (hv : hasTy (.vec a) (.vvec l) = true) (hcv : convertValid a b = true) :
    ∃ l', containerCast (.vec a) (.vec b) (.vvec l) = some (.vvec l') ∧
      containerCast (.array a l.length) (.vec b) (.varr l) = some (.vvec l') ∧
      l'.length = l.length ∧
      ∀ i, i < l.length →
        convert a b (l.getD i (.vint 0)) = some (l'.getD i (.vint 0)) := by
  simp only [hasTy, List.all_eq_true] at hv
  obtain ⟨l', hl', _⟩ := mapConvertWith_total (g := convert a b) (p := hasTy b)
    (fun x hx => convert_total a b x (hv x hx) hcv)
  refine ⟨l', ?_, ?_, mapConvertWith_length hl',
    fun i hi => mapConvertWith_getD _ hl' i hi⟩
  · simp [containerCast, hcv, hl']
  · simp [containerCast, hcv, hl']

/-- Witness for C4 at `vector<int>` to `vector<double>`, source
`{1, 2}`. -/
theorem containerCast_elementwise_witness :
    hasTy (.vec .int) (.vvec [.vint 1, .vint 2]) = true ∧
    convertValid .int .double = true ∧
    containerCast (.vec .int) (.vec .double) (.vvec [.vint 1, .vint 2]) =
      some (.vvec [.vdouble 1, .vdouble 2]) ∧
    (∃ l', containerCast (.vec .int) (.vec .double) (.vvec [.vint 1, .vint 2]) =
        some (.vvec l') ∧
      containerCast (.array .int ([Val.vint 1, Val.vint 2]).length) (.vec .double)
        (.varr [.vint 1, .vint 2]) = some (.vvec l') ∧
      l'.length = ([Val.vint 1, Val.vint 2]).length ∧
      ∀ i, i < ([Val.vint 1, Val.vint 2]).length →
        convert .int .double (([Val.vint 1, Val.vint 2]).getD i (.vint 0)) =
          some (l'.getD i (.vint 0))) :=
  ⟨by decide, by decide, rfl,
    containerCast_elementwise .int .double [.vint 1, .vint 2] (by decide) (by decide)⟩

/-- C5: for every well-typed fixed-size array of length `n` with
element type `a` convertible to `b`, `arrayCast<b>` succeeds and
returns an array of the same length `n` whose element at every index
`i` is `convert<b>(arr[i])`. -/
theorem arrayCast_elementwise (a b : Ty) (n : Nat) (l : List Val)
    (hv : hasTy (.array a n) (.varr l) = true) (hcv : convertValid a b = true) :
    ∃ l', arrayCast a b (.varr l) = some (.varr l') ∧ l'.length = n ∧
      ∀ i, i < n →
        convert a b (l.getD i (.vint 0)) = some (l'.getD i (.vint 0)) := by
  simp only [hasTy, Bool.and_eq_true, List.all_eq_true, beq_iff_eq] at hv
  obtain ⟨l', hl', _⟩ := mapConvertWith_total (g := convert a b) (p := hasTy b)
    (fun x hx => convert_total a b x (hv.2 x hx) hcv)
  refine ⟨l', ?_, (mapConvertWith_length hl').trans hv.1, fun i hi => ?_⟩
  · simp [arrayCast, hcv, hl']
  · exact mapConvertWith_getD _ hl' i (hv.1 ▸ hi)

/-- Witness for C5, the spec's concrete scenario: the `int` array
`[1, 2, 3]` under `arrayCast<double>` yields `[1.0, 2.0, 3.0]`. -/
theorem arrayCast_elementwise_witness :
    arrayCast .int .double (.varr [.vint 1, .vint 2, .vint 3]) =
      some (.varr [.vdouble 1, .vdouble 2, .vdouble 3]) ∧
    hasTy (.array .int 3) (.varr [.vint 1, .vint 2, .vint 3]) = true ∧
    convertValid .int .double = true ∧
    (∃ l', arrayCast .int .double (.varr [.vint 1, .vint 2, .vint 3]) =
        some (.varr l') ∧ l'.length = 3 ∧
      ∀ i, i < 3 →
        convert .int .double (([Val.vint 1, Val.vint 2, Val.vint 3] : List Val).getD i (.vint 0)) =
          some (l'.getD i (.vint 0))) :=
  ⟨rfl, by decide, by decide,
    arrayCast_elementwise .int .double 3 [.vint 1, .vint 2, .vint 3]
      (by decide) (by decide)⟩

/-- C6 counterexample: the code does not prefer the native cast over
the array-specific cast.  For `From = To = std::array<int, 1>` both the
native copy (`static_cast`) and the array specialization apply, and the
compiled instantiation runs `arrayCast` (C++ prefers the matching
partial specialization over the primary template), while the spec's
precedence list would select the native cast. -/
theorem selection_differs_on_same_array :
    validStaticCast (.array .int 1) (.array .int 1) = true ∧
    specArrayApplicable (.array .int 1) (.array .int 1) = true ∧
    selectedStrategy (.array .int 1) (.array .int 1) = some .arrayCast ∧
    specOrderStrategy (.array .int 1) (.array .int 1) = some .staticCast ∧
    selectedStrategy (.array .int 1) (.array .int 1) ≠
      specOrderStrategy (.array .int 1) (.array .int 1) := by decide

/-- C6 (amended): strategy selection is unambiguous (a function of the
type pair), and for every pair of distinct types it follows exactly the
spec's precedence order — native static cast, then element-wise
container cast, then the fixed-size-array cast.  The orders differ only
for `From = To = std::array<A, N>`, where the partial specialization
(array cast) is selected instead of the native copy. -/
theorem strategy_selection_order (f t : Ty) (hne : f ≠ t) :
    selectedStrategy f t = specOrderStrategy f t := by
  cases f <;> cases t <;>
    simp_all [selectedStrategy, specOrderStrategy, specContainerApplicable,
      specArrayApplicable, validStaticCast, validContainerCastStruct, isNum]
  rename_i a m b n
  rw [if_neg (show ¬(a = b ∧ m = n) from fun hc => hne hc.1 hc.2)]

/-- Witness for C6 (amended) at `vector<int>` to `vector<double>`. -/
theorem strategy_selection_order_witness :
    (Ty.vec .int ≠ Ty.vec .double) ∧
    selectedStrategy (.vec .int) (.vec .double) =
      specOrderStrategy (.vec .int) (.vec .double) :=
  ⟨by decide, strategy_selection_order (.vec .int) (.vec .double) (by decide)⟩

/-- Witness for C7 at `From = int`, `To = vector<int>` (no native cast,
`int` is not iterable so no container or array strategy). -/
theorem convert_fails_witness :
    convertValid .int (.vec .int) = false ∧
    convert .int (.vec .int) (.vint 3) = none :=
  ⟨by decide, convert_fails .int (.vec .int) (.vint 3) (by decide)⟩

/-- C8: no conversion mutates its source.  A conversion reads the
source cell by const reference and returns a freshly constructed
object: every pre-existing heap cell (in particular the source) is
unchanged, the result lives in a fresh cell, and the result's element
count equals the source's (scalars map to scalars, containers to
containers of the same size). -/
theorem convertAt_frame (h : List Val) (src : Nat) (f t : Ty) (out : List Val × Nat)
    (hc : convertAt h src f t = some out) :
    (∀ i, i < h.length → out.1.getD i (.vint 0) = h.getD i (.vint 0)) ∧
    out.2 = h.length ∧
    valSize (out.1.getD out.2 (.vint 0)) = valSize (h.getD src (.vint 0)) := by
  unfold convertAt at hc
  rcases hconv : convert f t (h.getD src (.vint 0)) with _ | w
  · rw [hconv] at hc; exact absurd hc (by simp)
  · rw [hconv] at hc
    simp only [Option.some.injEq] at hc
    subst hc
    refine ⟨fun i hi => ?_, rfl, ?_⟩
    · exact List.getD_append h [w] (.vint 0) i hi
    · have hget : (h ++ [w]).getD h.length (.vint 0) = w := by
        rw [List.getD_append_right h [w] (.vint 0) h.length (le_refl h.length)]
        simp
      rw [hget]
      exact convert_size f t _ w hconv

/-- Witness for C8: heap `[5]`, converting cell 0 from `int` to
`double`. -/
theorem convertAt_frame_witness :
    convertAt [.vint 5] 0 .int .double = some ([.vint 5, .vdouble 5], 1) ∧
    ((∀ i, i < ([Val.vint 5] : List Val).length →
        ([Val.vint 5, Val.vdouble 5] : List Val).getD i (.vint 0) =
          ([Val.vint 5] : List Val).getD i (.vint 0)) ∧
      1 = ([Val.vint 5] : List Val).length ∧
      valSize (([Val.vint 5, Val.vdouble 5] : List Val).getD 1 (.vint 0)) =
        valSize (([Val.vint 5] : List Val).getD 0 (.vint 0))) :=
  ⟨rfl, convertAt_frame [.vint 5] 0 .int .double ([.vint 5, .vdouble 5], 1) rfl⟩

/-- C9: the factory `makeReferenceIteration` cannot return the
reference-iteration view: its declared return type (line 84-85) is
`referenceIterator<T>` — the iterator adapter, a different type from
the `referenceIteration<T>` view its body constructs (line 87) — and no
constructor in the file converts the view into the iterator, so the
instantiation is ill-formed. -/
theorem makeReferenceIteration_return_type_bug :
    makeReferenceIterationDeclaredRet .baseColl ≠ makeReferenceIterationBodyTy .baseColl ∧
    constructibleFrom (makeReferenceIterationDeclaredRet .baseColl)
      (makeReferenceIterationBodyTy .baseColl) = false := by decide

/-- C10: for every well-typed source value and target type with a
compiling conversion path, the deferred form — `convert(v)` yielding an
`AutoCastable` that is later required to produce type `o` — gives
exactly the same result as the direct `convert<o>(v)`, and that result
exists. -/
theorem autoCast_deferred_agrees (f o : Ty) (v : Val)
    (hv : hasTy f v = true) (hcv : convertValid f o = true) :
    autoCast (convertDeferred f v) o = convert f o v ∧
    ∃ w, convert f o v = some w := by
  obtain ⟨w, hw, _⟩ := convert_total f o v hv hcv
  exact ⟨rfl, w, hw⟩

/-- Witness for C10 at `f = int`, `o = double`, `v = 7`. -/
theorem autoCast_deferred_agrees_witness :
    hasTy .int (.vint 7) = true ∧ convertValid .int .double = true ∧
    (autoCast (convertDeferred .int (.vint 7)) .double = convert .int .double (.vint 7) ∧
      ∃ w, convert .int .double (.vint 7) = some w) :=
  ⟨by decide, by decide,
    autoCast_deferred_agrees .int .double (.vint 7) (by decide) (by decide)⟩

end Nytl
